import Mathlib

/-!
Verification development for the ASMO-PODE Metropolis sampler
(file Metropolis.py of the repository).

The Python source is shallowly embedded over the real numbers:

* numpy arrays of shape (D,) become functions from Fin D to the reals,
  and preallocated arrays written inside loops become functions from the
  naturals (initially constantly zero, mirroring numpy zeros), updated
  with Function.update at the written index;
* the random draws consumed by a chain (the standard-normal vectors fed
  to the proposal and the uniform draws of the accept test) are explicit
  input streams, one entry per step, so every run is a deterministic
  function of its streams;
* numpy linalg cholesky is modelled by the Cholesky-Banachiewicz
  algorithm (reading only the lower triangle, as LAPACK dpotrf does);
  the factorization fails exactly when some pivot is nonpositive, and
  failure is an Option none result, modelling the raised LinAlgError;
* numpy linalg eig followed by numpy max is modelled by the supremum of
  the real spectrum of the matrix (the matrices this program feeds to it
  have real spectrum, being products of an inverse of a positive matrix
  with a positive semidefinite one);
* python true division, numpy exp, log and sqrt become real division
  and the Mathlib real exp, log and sqrt.  The Mathlib conventions are
  total (the log of a nonpositive number, a division by zero and the
  inverse of a singular matrix are all zero) where numpy would produce
  nan or raise inside the diagnostic, so statements about completed
  runs only use inputs on which the source computes finite values
  throughout.
-/

namespace Metropolis

noncomputable section

/-- The numpy clip of a scalar: minimum of the upper bound with the maximum
of the value and the lower bound, matching the numpy evaluation order. -/
def npclip (x lo hi : ℝ) : ℝ := min hi (max x lo)

/-- Cholesky-Banachiewicz entries of the lower-triangular factor of a
matrix, reading only its lower triangle.  Entry (j,k) with k below j is
the usual corrected inner product divided by the diagonal entry (k,k);
a diagonal entry is the square root of its pivot; entries above the
diagonal and out-of-range indices are zero. -/
def cholAux (D : ℕ) (A : Matrix (Fin D) (Fin D) ℝ) (j k : ℕ) : ℝ :=
  if hj : j < D then
    if hk : k < D then
      if k < j then
        (A ⟨j, hj⟩ ⟨k, hk⟩ -
            ∑ m ∈ (Finset.range k).attach, cholAux D A j m.1 * cholAux D A k m.1) /
          cholAux D A k k
      else if k = j then
        Real.sqrt (A ⟨j, hj⟩ ⟨k, hk⟩ -
          ∑ m ∈ (Finset.range j).attach, (cholAux D A j m.1) ^ 2)
      else 0
    else 0
  else 0
termination_by j + k
decreasing_by
  · have hm := m.2
    simp only [Finset.mem_range] at hm
    omega
  · have hm := m.2
    simp only [Finset.mem_range] at hm
    omega
  · omega
  · have hm := m.2
    simp only [Finset.mem_range] at hm
    omega

/-- Pivot of the Cholesky factorization at diagonal position j: the
diagonal entry of the input minus the sum of squares of the already
computed entries of row j. -/
def cholPivot (D : ℕ) (A : Matrix (Fin D) (Fin D) ℝ) (j : Fin D) : ℝ :=
  A j j - ∑ m ∈ (Finset.range j.1).attach, (cholAux D A j.1 m.1) ^ 2

/-- Success condition of the factorization: every pivot is positive.
LAPACK dpotrf reports failure exactly when it meets a nonpositive pivot. -/
def cholPivotOK (D : ℕ) (A : Matrix (Fin D) (Fin D) ℝ) : Prop :=
  ∀ j : Fin D, 0 < cholPivot D A j

open Classical in
/-- Model of numpy linalg cholesky: the lower-triangular factor when all
pivots are positive, none (the raised LinAlgError) otherwise. -/
def npCholesky (D : ℕ) (A : Matrix (Fin D) (Fin D) ℝ) :
    Option (Matrix (Fin D) (Fin D) ℝ) :=
  if cholPivotOK D A then
    some (Matrix.of fun j k : Fin D => cholAux D A j.1 k.1)
  else none

/-- Posterior score used by a chain, from the source lines 86 to 90:
with a prior evaluator the score is loglike times beta plus the prior;
without one it is loglike times beta minus twice the sum of the logs of
the box side lengths (implicit uniform prior over the box). -/
def flogpost (D : ℕ) (floglike : (Fin D → ℝ) → ℝ)
    (flogprior : Option ((Fin D → ℝ) → ℝ)) (beta : ℝ)
    (xlb xub : Fin D → ℝ) : (Fin D → ℝ) → ℝ :=
  match flogprior with
  | none => fun X => floglike X * beta - 2 * ∑ i, Real.log (xub i - xlb i)
  | some fp => fun X => floglike X * beta + fp X

/-- Running state of the chain loop of MChain: current point X, its
score pX, the accept counter, and the two preallocated output arrays. -/
structure MCState (D : ℕ) where
  X : Fin D → ℝ
  pX : ℝ
  accept : ℝ
  chain : ℕ → Fin D → ℝ
  logpost : ℕ → ℝ

/-- One iteration of the loop of MChain (source lines 98 to 116).
The proposal adds the row-vector product of the normal draw with the
Cholesky factor to the current point and clips it into the box; the
accept ratio is one when the candidate score is strictly below the
current score and exp of half their difference otherwise; on acceptance
the point, score and counter are updated; the (possibly unchanged)
point and score are recorded at index i. -/
def mcStep (D : ℕ) (fpost : (Fin D → ℝ) → ℝ) (xlb xub : Fin D → ℝ)
    (cholcmat : Matrix (Fin D) (Fin D) ℝ) (zs : ℕ → Fin D → ℝ) (us : ℕ → ℝ)
    (i : ℕ) (s : MCState D) : MCState D :=
  let Xt : Fin D → ℝ := fun j => npclip ((∑ k, zs i k * cholcmat k j) + s.X j) (xlb j) (xub j)
  let pXt : ℝ := fpost Xt
  let r : ℝ := if pXt < s.pX then 1 else Real.exp (0.5 * (s.pX - pXt))
  if us i ≤ r then
    { X := Xt, pX := pXt, accept := s.accept + 1,
      chain := Function.update s.chain i Xt,
      logpost := Function.update s.logpost i pXt }
  else
    { X := s.X, pX := s.pX, accept := s.accept,
      chain := Function.update s.chain i s.X,
      logpost := Function.update s.logpost i s.pX }

/-- Initial state of the chain loop: the starting point with its score
(source line 97), counter zero, and zero-filled output arrays. -/
def mcInit (D : ℕ) (fpost : (Fin D → ℝ) → ℝ) (X : Fin D → ℝ) : MCState D :=
  { X := X, pX := fpost X, accept := 0, chain := fun _ _ => 0, logpost := fun _ => 0 }

/-- State of the chain loop after n iterations. -/
def mcRun (D : ℕ) (fpost : (Fin D → ℝ) → ℝ) (xlb xub : Fin D → ℝ)
    (cholcmat : Matrix (Fin D) (Fin D) ℝ) (zs : ℕ → Fin D → ℝ) (us : ℕ → ℝ)
    (X : Fin D → ℝ) : ℕ → MCState D
  | 0 => mcInit D fpost X
  | n + 1 => mcStep D fpost xlb xub cholcmat zs us n
      (mcRun D fpost xlb xub cholcmat zs us X n)

/-- Result triple of MChain: recorded states, acceptance rate, recorded
scores. -/
structure MCOut (D : ℕ) where
  chain : ℕ → Fin D → ℝ
  accept : ℝ
  logpost : ℕ → ℝ

/-- Chain loop of MChain packaged as its result triple: run N steps and
divide the accept counter by N (source line 117). -/
def MChainCore (D : ℕ) (fpost : (Fin D → ℝ) → ℝ) (xlb xub : Fin D → ℝ)
    (cholcmat : Matrix (Fin D) (Fin D) ℝ) (zs : ℕ → Fin D → ℝ) (us : ℕ → ℝ)
    (X : Fin D → ℝ) (N : ℕ) : MCOut D :=
  let s := mcRun D fpost xlb xub cholcmat zs us X N
  { chain := s.chain, accept := s.accept / N, logpost := s.logpost }

/-- The function MChain of the source: build the posterior score, factor
the proposal covariance (none when the factorization fails, before any
proposal is drawn or any point is scored), then run the loop. -/
def MChain (D : ℕ) (floglike : (Fin D → ℝ) → ℝ)
    (flogprior : Option ((Fin D → ℝ) → ℝ)) (beta : ℝ) (xlb xub : Fin D → ℝ)
    (X : Fin D → ℝ) (sigma : Matrix (Fin D) (Fin D) ℝ)
    (zs : ℕ → Fin D → ℝ) (us : ℕ → ℝ) (N : ℕ) : Option (MCOut D) :=
  (npCholesky D sigma).map fun cholcmat =>
    MChainCore D (flogpost D floglike flogprior beta xlb xub) xlb xub
      cholcmat zs us X N

/-- Per-dimension mean of a chain over its samples (numpy mean along the
sample axis, source line 147). -/
def chainMean (N D : ℕ) (c : Fin N → Fin D → ℝ) (j : Fin D) : ℝ :=
  (∑ t, c t j) / N

/-- The numpy cov of a variables-times-observations array: entry (j,k)
is the sum over observations of the products of centered values, divided
by the number of observations minus one (the numpy default ddof 1). -/
def npCov (n D : ℕ) (x : Fin n → Fin D → ℝ) : Matrix (Fin D) (Fin D) ℝ :=
  Matrix.of fun j k =>
    (∑ t, (x t j - chainMean n D x j) * (x t k - chainMean n D x k)) / ((n : ℝ) - 1)

/-- Largest eigenvalue of a real matrix, modelled as the supremum of the
set of real roots of its characteristic equation.  The source computes
numpy max over numpy linalg eig; the matrices this program feeds to it
have real spectrum. -/
def lambdaMax (D : ℕ) (A : Matrix (Fin D) (Fin D) ℝ) : ℝ :=
  sSup {t : ℝ | (A - t • (1 : Matrix (Fin D) (Fin D) ℝ)).det = 0}

/-- The function GRBfactor of the source (lines 141 to 153): sum the
per-chain covariances into V, divide elementwise by the chain count to
get V1, take V2 as the covariance of the chain means, take the largest
eigenvalue L of the product of the inverse of V1 with V2, and return
the square root of (nmax-1)/nmax + (nchain+1)/nchain times L. -/
def GRBfactor (M N D : ℕ) (Chain : Fin M → Fin N → Fin D → ℝ) : ℝ :=
  let Mmat : Fin M → Fin D → ℝ := fun i => chainMean N D (Chain i)
  let V : Matrix (Fin D) (Fin D) ℝ := ∑ i, npCov N D (Chain i)
  let V1 : Matrix (Fin D) (Fin D) ℝ := Matrix.of fun j k => V j k / M
  let V2 : Matrix (Fin D) (Fin D) ℝ := npCov M D Mmat
  let L : ℝ := lambdaMax D (V1⁻¹ * V2)
  Real.sqrt (((N : ℝ) - 1) / N + ((M : ℝ) + 1) / M * L)

/-- Within-chain covariance as the specification words it: the average
of the M unbiased per-chain sample covariance matrices. -/
def specW (M N D : ℕ) (Chain : Fin M → Fin N → Fin D → ℝ) :
    Matrix (Fin D) (Fin D) ℝ :=
  ((M : ℝ))⁻¹ • ∑ i, npCov N D (Chain i)

/-- Between-chain covariance as the specification words it: the unbiased
covariance of the M chain means. -/
def specBcov (M N D : ℕ) (Chain : Fin M → Fin N → Fin D → ℝ) :
    Matrix (Fin D) (Fin D) ℝ :=
  npCov M D fun i => chainMean N D (Chain i)

/-- Default proposal covariance of the sampler (source lines 32 to 35):
start from the identity and, for each index i in turn, multiply the
diagonal entry (i,i) in place by (xub i - xlb i) times one tenth. -/
def defaultSigma (D : ℕ) (xlb xub : Fin D → ℝ) : Matrix (Fin D) (Fin D) ℝ :=
  (List.range D).foldl
    (fun A i => Matrix.of fun j k =>
      if j.1 = i ∧ k.1 = i then A j k * ((xub j - xlb j) * 0.1) else A j k)
    (1 : Matrix (Fin D) (Fin D) ℝ)

/-- Covariance actually used by the sampler: the supplied one, or the
default when the caller supplies none. -/
def resolveSigma (D : ℕ) (xlb xub : Fin D → ℝ)
    (sigma : Option (Matrix (Fin D) (Fin D) ℝ)) : Matrix (Fin D) (Fin D) ℝ :=
  sigma.getD (defaultSigma D xlb xub)

/-- Output arrays of the sampler, mirroring the preallocated numpy
arrays of source lines 24 to 28: the per-chain ensemble, the per-chain
scores, the merged chain and scores, and the acceptance-rate vector. -/
structure SamplerOut (D : ℕ) where
  Chain : ℕ → ℕ → Fin D → ℝ
  LogPost : ℕ → ℕ → ℝ
  ChainMerged : ℕ → Fin D → ℝ
  LogPostMerged : ℕ → ℝ
  ACC : ℕ → ℝ

/-- Zero-filled sampler output arrays (the numpy zeros preallocation). -/
def samplerInit (D : ℕ) : SamplerOut D :=
  { Chain := fun _ _ _ => 0, LogPost := fun _ _ => 0,
    ChainMerged := fun _ _ => 0, LogPostMerged := fun _ => 0, ACC := fun _ => 0 }

/-- Body of the sequential loop of the sampler (source lines 46 to 55)
for chain index i: run the burn-in chain of length B from the supplied
start, run the sampling chain of length N from the last recorded
burn-in state, then write chain i's results into the output arrays,
its retained trajectory also into the merged block of rows i*N to
(i+1)*N. -/
def samplerStep (D : ℕ) (floglike : (Fin D → ℝ) → ℝ)
    (flogprior : Option ((Fin D → ℝ) → ℝ)) (beta : ℝ) (B N : ℕ)
    (xlb xub : Fin D → ℝ) (X0 : ℕ → Fin D → ℝ)
    (sigma : Matrix (Fin D) (Fin D) ℝ)
    (zsB : ℕ → ℕ → Fin D → ℝ) (usB : ℕ → ℕ → ℝ)
    (zsS : ℕ → ℕ → Fin D → ℝ) (usS : ℕ → ℕ → ℝ)
    (out : SamplerOut D) (i : ℕ) : Option (SamplerOut D) := do
  let b ← MChain D floglike flogprior beta xlb xub (X0 i) sigma (zsB i) (usB i) B
  let s ← MChain D floglike flogprior beta xlb xub (b.chain (B - 1)) sigma (zsS i) (usS i) N
  pure
    { Chain := Function.update out.Chain i s.chain,
      LogPost := Function.update out.LogPost i s.logpost,
      ChainMerged := fun r =>
        if i * N ≤ r ∧ r < (i + 1) * N then s.chain (r - i * N) else out.ChainMerged r,
      LogPostMerged := fun r =>
        if i * N ≤ r ∧ r < (i + 1) * N then s.logpost (r - i * N) else out.LogPostMerged r,
      ACC := Function.update out.ACC i s.accept }

/-- Sequential loop of the sampler over the M chain indices, starting
from the zero-filled output arrays. -/
def samplerAux (D M : ℕ) (floglike : (Fin D → ℝ) → ℝ)
    (flogprior : Option ((Fin D → ℝ) → ℝ)) (beta : ℝ) (B N : ℕ)
    (xlb xub : Fin D → ℝ) (X0 : ℕ → Fin D → ℝ)
    (sigma : Matrix (Fin D) (Fin D) ℝ)
    (zsB : ℕ → ℕ → Fin D → ℝ) (usB : ℕ → ℕ → ℝ)
    (zsS : ℕ → ℕ → Fin D → ℝ) (usS : ℕ → ℕ → ℝ) : Option (SamplerOut D) :=
  (List.range M).foldlM
    (samplerStep D floglike flogprior beta B N xlb xub X0 sigma zsB usB zsS usS)
    (samplerInit D)

/-- The function sampler of the source, sequential mode: resolve the
proposal covariance (the default when none is supplied), set beta to
one over the temperature, run the per-chain loop, then return the
merged chain, the merged scores, the acceptance rates and the GRB
factor of the retained ensemble.  The caller-supplied initial points
are the X0 rows; the default random initialization and the parallel
branch (which performs the same per-chain computation through a worker
pool) are outside this embedding. -/
def sampler (D M : ℕ) (floglike : (Fin D → ℝ) → ℝ)
    (flogprior : Option ((Fin D → ℝ) → ℝ)) (T : ℝ) (B N : ℕ)
    (xlb xub : Fin D → ℝ) (X0 : ℕ → Fin D → ℝ)
    (sigma : Option (Matrix (Fin D) (Fin D) ℝ))
    (zsB : ℕ → ℕ → Fin D → ℝ) (usB : ℕ → ℕ → ℝ)
    (zsS : ℕ → ℕ → Fin D → ℝ) (usS : ℕ → ℕ → ℝ) :
    Option ((ℕ → Fin D → ℝ) × (ℕ → ℝ) × (ℕ → ℝ) × ℝ) :=
  (samplerAux D M floglike flogprior (1 / T) B N xlb xub X0
      (resolveSigma D xlb xub sigma) zsB usB zsS usS).map fun out =>
    (out.ChainMerged, out.LogPostMerged, out.ACC,
      GRBfactor M N D fun i t => out.Chain i.1 t.1)

/-- Concrete one-dimensional proposal covariance, the 1 by 1 identity. -/
def sigma1 : Matrix (Fin 1) (Fin 1) ℝ := Matrix.of fun _ _ => 1

/-- Cholesky factor of sigma1 as npCholesky computes it. -/
def chol1 : Matrix (Fin 1) (Fin 1) ℝ := Matrix.of fun j k : Fin 1 => cholAux 1 sigma1 j.1 k.1

/-- Concrete non-positive-definite 1 by 1 covariance. -/
def sigmaNeg : Matrix (Fin 1) (Fin 1) ℝ := Matrix.of fun _ _ => -1

/-- Concrete non-diagonal positive-definite 2 by 2 covariance. -/
def sigmaC1 : Matrix (Fin 2) (Fin 2) ℝ := !![1, 1; 1, 2]

/-- Lower-triangular Cholesky factor of sigmaC1. -/
def cholC1 : Matrix (Fin 2) (Fin 2) ℝ := !![1, 0; 1, 1]

/-- Concrete standard-normal draw used against sigmaC1. -/
def zC1 : Fin 2 → ℝ := ![0, 1]

/-- Concrete lower bound, zero in each dimension. -/
def xlbW : Fin 1 → ℝ := fun _ => 0

/-- Concrete upper bound, one in each dimension. -/
def xubW : Fin 1 → ℝ := fun _ => 1

/-- Concrete likelihood evaluator, constantly zero. -/
def fW : (Fin 1 → ℝ) → ℝ := fun _ => 0

/-- Concrete prior evaluator, constantly zero. -/
def gpW : Option ((Fin 1 → ℝ) → ℝ) := some fun _ => 0

/-- Concrete normal-draw stream, constantly zero. -/
def zsW : ℕ → Fin 1 → ℝ := fun _ _ => 0

/-- Concrete uniform-draw stream, constantly one half. -/
def usW : ℕ → ℝ := fun _ => 1 / 2

/-- Concrete in-bounds starting point. -/
def X0W : Fin 1 → ℝ := fun _ => 0

/-- Concrete one-step chain run from X0W with constant score. -/
def runW : MCOut 1 :=
  MChainCore 1 (flogpost 1 fW gpW 1 xlbW xubW) xlbW xubW chol1 zsW usW X0W 1

/-- Concrete likelihood evaluator, the negated first coordinate. -/
def f4 : (Fin 1 → ℝ) → ℝ := fun x => -(x 0)

/-- Concrete out-of-bounds starting point. -/
def X4 : Fin 1 → ℝ := fun _ => 5

/-- Concrete uniform-draw stream, constantly nine tenths. -/
def us4 : ℕ → ℝ := fun _ => 9 / 10

/-- Concrete two-chain two-sample one-dimensional ensemble. -/
def chW : Fin 2 → Fin 2 → Fin 1 → ℝ := fun i t _ => !![(0 : ℝ), 2; 0, 4] i t

/-- Concrete per-chain normal-draw streams, constantly zero. -/
def zsB2 : ℕ → ℕ → Fin 1 → ℝ := fun _ _ _ => 0

/-- Concrete per-chain uniform-draw streams, constantly one half. -/
def usB2 : ℕ → ℕ → ℝ := fun _ _ => 1 / 2

/-- Concrete sequential sampler loop result on one chain of one step. -/
def auxW : Option (SamplerOut 1) :=
  samplerAux 1 1 fW gpW 1 1 1 xlbW xubW (fun _ => X0W) sigma1 zsB2 usB2 zsB2 usB2

/-- The sampler output arrays of the concrete run auxW. -/
def outW : SamplerOut 1 := auxW.getD (samplerInit 1)

/-- Concrete burn-in uniform-draw streams, constantly nine tenths, so
that every burn-in step of the C5 counterexample run rejects. -/
def usB5 : ℕ → ℕ → ℝ := fun _ _ => 9 / 10

/-- Concrete sampling uniform-draw streams for the C5 counterexample
run: nine tenths at the first step (reject), one hundredth afterwards
(accept). -/
def usS5 : ℕ → ℕ → ℝ := fun _ t => if t = 0 then 9 / 10 else 1 / 100

/-- Clipping lands in the box as soon as the box is nonempty. -/
theorem npclip_mem (x lo hi : ℝ) (h : lo ≤ hi) :
    lo ≤ npclip x lo hi ∧ npclip x lo hi ≤ hi := by
  refine ⟨le_min h (le_max_right _ _), min_le_left _ _⟩

/-- The pivots of sigma1 are positive. -/
theorem sigma1_pivotOK : cholPivotOK 1 sigma1 := by
  intro j
  have hj : j = 0 := Subsingleton.elim j 0
  subst hj
  simp [cholPivot, sigma1]

/-- On sigma1 the factorization succeeds and returns chol1. -/
theorem npCholesky_sigma1 : npCholesky 1 sigma1 = some chol1 := by
  rw [npCholesky, if_pos sigma1_pivotOK]
  rfl

/-- MChain on sigma1 always succeeds, with factor chol1. -/
theorem MChain_sigma1_eq (f : (Fin 1 → ℝ) → ℝ) (gp : Option ((Fin 1 → ℝ) → ℝ))
    (beta : ℝ) (xlb xub X : Fin 1 → ℝ) (zs : ℕ → Fin 1 → ℝ) (us : ℕ → ℝ) (N : ℕ) :
    MChain 1 f gp beta xlb xub X sigma1 zs us N =
      some (MChainCore 1 (flogpost 1 f gp beta xlb xub) xlb xub chol1 zs us X N) := by
  rw [MChain, npCholesky_sigma1]
  rfl

/-- The accept counter of the loop stays between zero and the number of
steps performed. -/
theorem mcRun_accept_bounds (D : ℕ) (fpost : (Fin D → ℝ) → ℝ) (xlb xub : Fin D → ℝ)
    (L : Matrix (Fin D) (Fin D) ℝ) (zs : ℕ → Fin D → ℝ) (us : ℕ → ℝ)
    (X : Fin D → ℝ) (n : ℕ) :
    0 ≤ (mcRun D fpost xlb xub L zs us X n).accept ∧
      (mcRun D fpost xlb xub L zs us X n).accept ≤ n := by
  induction n with
  | zero => simp [mcRun, mcInit]
  | succ n ih =>
    rw [mcRun, mcStep]
    split <;> split <;> dsimp only <;>
      (constructor <;> push_cast <;> linarith [ih.1, ih.2])

/-- The current score of the loop is always the score of the current
point, and every recorded score is the score of the recorded point. -/
theorem mcRun_pairing (D : ℕ) (fpost : (Fin D → ℝ) → ℝ) (xlb xub : Fin D → ℝ)
    (L : Matrix (Fin D) (Fin D) ℝ) (zs : ℕ → Fin D → ℝ) (us : ℕ → ℝ)
    (X : Fin D → ℝ) (n : ℕ) :
    (mcRun D fpost xlb xub L zs us X n).pX =
        fpost (mcRun D fpost xlb xub L zs us X n).X ∧
      ∀ i < n, (mcRun D fpost xlb xub L zs us X n).logpost i =
        fpost ((mcRun D fpost xlb xub L zs us X n).chain i) := by
  induction n with
  | zero => exact ⟨rfl, fun i hi => absurd hi (Nat.not_lt_zero i)⟩
  | succ n ih =>
    rw [mcRun, mcStep]
    split <;> split <;> dsimp only
    all_goals
      refine ⟨?_, fun i hi => ?_⟩
      · first | rfl | exact ih.1
      · rcases Nat.lt_succ_iff_lt_or_eq.mp hi with hi' | hi'
        · rw [Function.update_noteq (Nat.ne_of_lt hi'),
            Function.update_noteq (Nat.ne_of_lt hi')]
          exact ih.2 i hi'
        · subst hi'
          rw [Function.update_same, Function.update_same]
          all_goals exact ih.1

/-- When the starting point is inside the box, the current point and
every recorded point of the loop stay inside the box. -/
theorem mcRun_inBounds (D : ℕ) (fpost : (Fin D → ℝ) → ℝ) (xlb xub : Fin D → ℝ)
    (L : Matrix (Fin D) (Fin D) ℝ) (zs : ℕ → Fin D → ℝ) (us : ℕ → ℝ)
    (X : Fin D → ℝ) (h0 : ∀ j, xlb j ≤ X j ∧ X j ≤ xub j) (n : ℕ) :
    (∀ j, xlb j ≤ (mcRun D fpost xlb xub L zs us X n).X j ∧
        (mcRun D fpost xlb xub L zs us X n).X j ≤ xub j) ∧
      ∀ i < n, ∀ j, xlb j ≤ (mcRun D fpost xlb xub L zs us X n).chain i j ∧
        (mcRun D fpost xlb xub L zs us X n).chain i j ≤ xub j := by
  have hlu : ∀ j, xlb j ≤ xub j := fun j => le_trans (h0 j).1 (h0 j).2
  induction n with
  | zero => exact ⟨h0, fun i hi => absurd hi (Nat.not_lt_zero i)⟩
  | succ n ih =>
    rw [mcRun, mcStep]
    split <;> split <;> dsimp only
    all_goals
      refine ⟨?_, fun i hi => ?_⟩
      · first
          | exact fun j => npclip_mem _ _ _ (hlu j)
          | exact ih.1
      · rcases Nat.lt_succ_iff_lt_or_eq.mp hi with hi' | hi'
        · rw [Function.update_noteq (Nat.ne_of_lt hi')]
          exact ih.2 i hi'
        · subst hi'
          rw [Function.update_same]
          first
            | exact fun j => npclip_mem _ _ _ (hlu j)
            | exact ih.1

/-- When the score is the same at every point and every uniform draw is
below one, every step of the loop accepts: the counter equals the step
count. -/
theorem mcRun_const_accept (D : ℕ) (fpost : (Fin D → ℝ) → ℝ) (xlb xub : Fin D → ℝ)
    (L : Matrix (Fin D) (Fin D) ℝ) (zs : ℕ → Fin D → ℝ) (us : ℕ → ℝ)
    (X : Fin D → ℝ) (hc : ∀ x y, fpost x = fpost y)
    (hu : ∀ i, 0 ≤ us i ∧ us i < 1) (n : ℕ) :
    (mcRun D fpost xlb xub L zs us X n).accept = n := by
  have hstep : ∀ (i : ℕ) (s : MCState D), s.pX = fpost s.X →
      (mcStep D fpost xlb xub L zs us i s).accept = s.accept + 1 := by
    intro i s hs
    rw [mcStep]
    have heq : ∀ Xt : Fin D → ℝ, fpost Xt = s.pX := fun Xt => by
      rw [hs]
      exact hc Xt s.X
    rw [heq]
    rw [if_neg (lt_irrefl s.pX), sub_self, mul_zero, Real.exp_zero,
      if_pos (le_of_lt (hu i).2)]
  induction n with
  | zero => simp [mcRun, mcInit]
  | succ n ih =>
    rw [mcRun, hstep n _ (mcRun_pairing D fpost xlb xub L zs us X n).1, ih]
    push_cast
    ring

/-- C10: for every chain run with deterministic evaluators, the recorded
log-posterior value at every step equals the posterior score of the
recorded state at that step, because acceptance stores the state with
its already computed score and rejection leaves both unchanged. -/
theorem C10_logpost_pairs_chain (D : ℕ) (f : (Fin D → ℝ) → ℝ)
    (gp : Option ((Fin D → ℝ) → ℝ)) (beta : ℝ) (xlb xub X : Fin D → ℝ)
    (sigma : Matrix (Fin D) (Fin D) ℝ) (zs : ℕ → Fin D → ℝ) (us : ℕ → ℝ)
    (N : ℕ) (res : MCOut D)
    (hres : MChain D f gp beta xlb xub X sigma zs us N = some res) :
    ∀ i < N, res.logpost i = flogpost D f gp beta xlb xub (res.chain i) := by
  rcases hL : npCholesky D sigma with _ | L
  · rw [MChain, hL] at hres
    exact absurd hres (by simp)
  · rw [MChain, hL] at hres
    have hres' : MChainCore D (flogpost D f gp beta xlb xub) xlb xub L zs us X N = res := by
      simpa using hres
    subst hres'
    exact (mcRun_pairing D (flogpost D f gp beta xlb xub) xlb xub L zs us X N).2

/-- Witness for C10 at a concrete one-step run. -/
theorem C10_witness :
    runW.logpost 0 = flogpost 1 fW gpW 1 xlbW xubW (runW.chain 0) :=
  C10_logpost_pairs_chain 1 fW gpW 1 xlbW xubW X0W sigma1 zsW usW 1 runW
    (MChain_sigma1_eq fW gpW 1 xlbW xubW X0W zsW usW 1) 0 (by norm_num)

/-- C6: for every chain run the returned acceptance rate lies between
zero and one, and when the posterior score is the same everywhere every
step accepts, so the rate equals one exactly. -/
theorem C6_acceptance_rate (D : ℕ) (f : (Fin D → ℝ) → ℝ)
    (gp : Option ((Fin D → ℝ) → ℝ)) (beta : ℝ) (xlb xub X : Fin D → ℝ)
    (sigma : Matrix (Fin D) (Fin D) ℝ) (zs : ℕ → Fin D → ℝ) (us : ℕ → ℝ)
    (N : ℕ) (res : MCOut D) (hN : 0 < N) (hu : ∀ i, 0 ≤ us i ∧ us i < 1)
    (hres : MChain D f gp beta xlb xub X sigma zs us N = some res) :
    (0 ≤ res.accept ∧ res.accept ≤ 1) ∧
      ((∀ x y, flogpost D f gp beta xlb xub x = flogpost D f gp beta xlb xub y) →
        res.accept = 1) := by
  rcases hL : npCholesky D sigma with _ | L
  · rw [MChain, hL] at hres
    exact absurd hres (by simp)
  · rw [MChain, hL] at hres
    have hres' : MChainCore D (flogpost D f gp beta xlb xub) xlb xub L zs us X N = res := by
      simpa using hres
    subst hres'
    have hb := mcRun_accept_bounds D (flogpost D f gp beta xlb xub) xlb xub L zs us X N
    have hNpos : (0 : ℝ) < N := by exact_mod_cast hN
    refine ⟨⟨div_nonneg hb.1 (le_of_lt hNpos), (div_le_one hNpos).mpr hb.2⟩, ?_⟩
    intro hc
    have hall := mcRun_const_accept D (flogpost D f gp beta xlb xub) xlb xub L zs us X hc hu N
    simp only [MChainCore]
    rw [hall]
    exact div_self (ne_of_gt hNpos)

/-- Witness for C6 at a concrete one-step run with constant score. -/
theorem C6_witness :
    ((0 : ℝ) ≤ runW.accept ∧ runW.accept ≤ 1) ∧ runW.accept = 1 := by
  have h := C6_acceptance_rate 1 fW gpW 1 xlbW xubW X0W sigma1 zsW usW 1 runW
    (by norm_num) (fun i => by constructor <;> norm_num [usW])
    (MChain_sigma1_eq fW gpW 1 xlbW xubW X0W zsW usW 1)
  exact ⟨h.1, h.2 fun x y => rfl⟩

/-- C4 (amended): provided the starting point of the chain lies inside
the box component-wise, every recorded sample lies inside the box
component-wise, including rejection steps that retain the initial
point. -/
theorem C4_samples_in_bounds (D : ℕ) (f : (Fin D → ℝ) → ℝ)
    (gp : Option ((Fin D → ℝ) → ℝ)) (beta : ℝ) (xlb xub X : Fin D → ℝ)
    (sigma : Matrix (Fin D) (Fin D) ℝ) (zs : ℕ → Fin D → ℝ) (us : ℕ → ℝ)
    (N : ℕ) (res : MCOut D) (h0 : ∀ j, xlb j ≤ X j ∧ X j ≤ xub j)
    (hres : MChain D f gp beta xlb xub X sigma zs us N = some res) :
    ∀ i < N, ∀ j, xlb j ≤ res.chain i j ∧ res.chain i j ≤ xub j := by
  rcases hL : npCholesky D sigma with _ | L
  · rw [MChain, hL] at hres
    exact absurd hres (by simp)
  · rw [MChain, hL] at hres
    have hres' : MChainCore D (flogpost D f gp beta xlb xub) xlb xub L zs us X N = res := by
      simpa using hres
    subst hres'
    exact (mcRun_inBounds D (flogpost D f gp beta xlb xub) xlb xub L zs us X h0 N).2

/-- Witness for C4 at a concrete one-step run started inside the box. -/
theorem C4_witness :
    (∀ j : Fin 1, xlbW j ≤ X0W j ∧ X0W j ≤ xubW j) ∧
      xlbW 0 ≤ runW.chain 0 0 ∧ runW.chain 0 0 ≤ xubW 0 := by
  have h0 : ∀ j : Fin 1, xlbW j ≤ X0W j ∧ X0W j ≤ xubW j := fun j => by
    constructor <;> norm_num [xlbW, xubW, X0W]
  exact ⟨h0, C4_samples_in_bounds 1 fW gpW 1 xlbW xubW X0W sigma1 zsW usW 1 runW h0
    (MChain_sigma1_eq fW gpW 1 xlbW xubW X0W zsW usW 1) 0 (by norm_num) 0⟩

/-- C8: the posterior score used by the acceptance test is beta times
the likelihood plus the prior when a prior evaluator is supplied, and
beta times the likelihood minus twice the sum of the logs of the box
side lengths when none is supplied. -/
theorem C8_posterior_composition (D : ℕ) (f g : (Fin D → ℝ) → ℝ) (beta : ℝ)
    (xlb xub x : Fin D → ℝ) :
    flogpost D f (some g) beta xlb xub x = beta * f x + g x ∧
      flogpost D f none beta xlb xub x =
        beta * f x - 2 * ∑ i, Real.log (xub i - xlb i) := by
  constructor
  · show f x * beta + g x = beta * f x + g x
    ring
  · show f x * beta - 2 * ∑ i, Real.log (xub i - xlb i) = _
    ring

/-- The chain mean is invariant under a permutation of the samples. -/
theorem chainMean_comp_perm (n D : ℕ) (x : Fin n → Fin D → ℝ)
    (π : Equiv.Perm (Fin n)) (j : Fin D) :
    chainMean n D (fun t => x (π t)) j = chainMean n D x j := by
  unfold chainMean
  congr 1
  exact Equiv.sum_comp π fun t => x t j

/-- The sample covariance is invariant under a permutation of the
observations. -/
theorem npCov_comp_perm (n D : ℕ) (x : Fin n → Fin D → ℝ) (π : Equiv.Perm (Fin n)) :
    npCov n D (fun t => x (π t)) = npCov n D x := by
  ext j k
  simp only [npCov, Matrix.of_apply, chainMean_comp_perm]
  congr 1
  exact Equiv.sum_comp π fun t =>
    (x t j - chainMean n D x j) * (x t k - chainMean n D x k)

/-- C9: the GRB scalar is invariant under a permutation of the chain
indices, exactly over the reals. -/
theorem C9_grb_perm_invariant (M N D : ℕ) (Chain : Fin M → Fin N → Fin D → ℝ)
    (π : Equiv.Perm (Fin M)) :
    GRBfactor M N D (fun i => Chain (π i)) = GRBfactor M N D Chain := by
  have hV : (∑ i, npCov N D (Chain (π i))) = ∑ i, npCov N D (Chain i) :=
    Equiv.sum_comp π fun i => npCov N D (Chain i)
  have hM : npCov M D (fun i => chainMean N D (Chain (π i))) =
      npCov M D fun i => chainMean N D (Chain i) :=
    npCov_comp_perm M D (fun i => chainMean N D (Chain i)) π
  simp only [GRBfactor]
  rw [hV, hM]

/-- C2: the GRB diagnostic equals the square root of (N-1)/N plus
(M+1)/M times the largest eigenvalue of the product of the inverse of
the within-chain covariance (the average of the unbiased per-chain
covariances) with the between-chain covariance (the unbiased covariance
of the chain means), and it is nonnegative. -/
theorem C2_grb_formula (M N D : ℕ) (Chain : Fin M → Fin N → Fin D → ℝ)
    (hW : IsUnit (specW M N D Chain).det) :
    0 ≤ GRBfactor M N D Chain ∧
      GRBfactor M N D Chain =
        Real.sqrt (((N : ℝ) - 1) / N +
          ((M : ℝ) + 1) / M *
            lambdaMax D ((specW M N D Chain)⁻¹ * specBcov M N D Chain)) := by
  have hV1 : (Matrix.of fun j k => (∑ i, npCov N D (Chain i)) j k / (M : ℝ)) =
      specW M N D Chain := by
    ext j k
    simp [specW, Matrix.smul_apply, div_eq_inv_mul]
  refine ⟨Real.sqrt_nonneg _, ?_⟩
  simp only [GRBfactor]
  rw [hV1]
  rfl

/-- Entries of the partially processed default covariance loop: after
handling the first m indices, a diagonal entry below m carries its
scaled value, the remaining diagonal entries still carry one, and all
off-diagonal entries are zero. -/
theorem defaultSigma_foldl (D : ℕ) (xlb xub : Fin D → ℝ) (m : ℕ) (j k : Fin D) :
    ((List.range m).foldl
        (fun A i => Matrix.of fun j k =>
          if j.1 = i ∧ k.1 = i then A j k * ((xub j - xlb j) * 0.1) else A j k)
        (1 : Matrix (Fin D) (Fin D) ℝ)) j k =
      if j = k then (if j.1 < m then 1 * ((xub j - xlb j) * 0.1) else 1) else 0 := by
  induction m with
  | zero =>
    simp only [List.range_zero, List.foldl_nil, Nat.not_lt_zero, if_false]
    by_cases h : j = k
    · subst h
      simp [Matrix.one_apply]
    · simp [Matrix.one_apply, h]
  | succ m ih =>
    rw [List.range_succ, List.foldl_append, List.foldl_cons, List.foldl_nil]
    simp only [Matrix.of_apply]
    by_cases hjk : j = k
    · subst hjk
      by_cases hjm : j.1 = m
      · rw [if_pos ⟨hjm, hjm⟩, ih]
        have hnot : ¬j.1 < m := by omega
        rw [if_pos rfl, if_pos rfl, if_neg hnot, if_pos (by omega)]
      · rw [if_neg (by tauto), ih, if_pos rfl, if_pos rfl]
        have : j.1 < m ↔ j.1 < m + 1 := by omega
        by_cases hlt : j.1 < m
        · rw [if_pos hlt, if_pos (by omega)]
        · rw [if_neg hlt, if_neg (by omega)]
    · have hne : ¬(j.1 = m ∧ k.1 = m) := by
        rintro ⟨h1, h2⟩
        exact hjk (Fin.ext (h1.trans h2.symm))
      rw [if_neg hne, ih, if_neg hjk, if_neg hjk]

/-- C3 (amended): when the caller supplies no covariance the sampler
uses the default: a diagonal matrix whose entry (i,i) is
(xub i - xlb i) times one tenth itself, not its square; that entry is
the proposal variance, so the per-dimension standard deviation is its
square root. -/
theorem C3_default_sigma (D : ℕ) (xlb xub : Fin D → ℝ) :
    resolveSigma D xlb xub none = defaultSigma D xlb xub ∧
      ∀ i j, defaultSigma D xlb xub i j =
        if i = j then (xub i - xlb i) * 0.1 else 0 := by
  refine ⟨rfl, fun i j => ?_⟩
  rw [defaultSigma, defaultSigma_foldl]
  by_cases h : i = j
  · rw [if_pos h, if_pos h, if_pos i.2, one_mul]
  · rw [if_neg h, if_neg h]

/-- Counterexample for C3 as stated: with box side one, the default
diagonal entry is one tenth, not the square of one tenth. -/
theorem C3_counterexample :
    defaultSigma 1 (fun _ => 0) (fun _ => 1) 0 0 = 1 / 10 ∧
      ¬defaultSigma 1 (fun _ => 0) (fun _ => 1) 0 0 =
        (0.1 * (((1 : ℝ)) - 0)) ^ 2 := by
  have h : defaultSigma 1 (fun _ => 0) (fun _ => 1) 0 0 = 1 / 10 := by
    rw [defaultSigma, defaultSigma_foldl]
    norm_num
  refine ⟨h, ?_⟩
  rw [h]
  norm_num

/-- Witness for C2 on a concrete two-chain ensemble with invertible
within-chain covariance. -/
theorem C2_witness :
    IsUnit (specW 2 2 1 chW).det ∧
      (0 ≤ GRBfactor 2 2 1 chW ∧
        GRBfactor 2 2 1 chW =
          Real.sqrt ((((2 : ℕ) : ℝ) - 1) / ((2 : ℕ) : ℝ) +
            (((2 : ℕ) : ℝ) + 1) / ((2 : ℕ) : ℝ) *
              lambdaMax 1 ((specW 2 2 1 chW)⁻¹ * specBcov 2 2 1 chW))) := by
  have hval : (specW 2 2 1 chW).det = 5 := by
    simp [specW, npCov, chainMean, chW, Matrix.det_fin_one, Matrix.smul_apply,
      Matrix.sum_apply, Fin.sum_univ_two, Matrix.of_apply]
    norm_num
  have hW : IsUnit (specW 2 2 1 chW).det := by
    rw [hval]
    exact isUnit_iff_ne_zero.mpr (by norm_num)
  exact ⟨hW, C2_grb_formula 2 2 1 chW hW⟩

/-- Entry (0,0) of the factor of sigmaC1. -/
theorem cholC1_00 : cholAux 2 sigmaC1 0 0 = 1 := by
  rw [cholAux,
    Finset.sum_attach (Finset.range 0) fun m => cholAux 2 sigmaC1 0 m ^ 2]
  norm_num [Finset.sum_range_zero, sigmaC1, Fin.mk_zero, Matrix.cons_val_zero,
    Real.sqrt_one]

/-- Entry (1,0) of the factor of sigmaC1. -/
theorem cholC1_10 : cholAux 2 sigmaC1 1 0 = 1 := by
  rw [cholAux,
    Finset.sum_attach (Finset.range 0) fun m =>
      cholAux 2 sigmaC1 1 m * cholAux 2 sigmaC1 0 m,
    cholC1_00]
  norm_num [Finset.sum_range_zero, sigmaC1, Fin.mk_zero, Fin.mk_one,
    Matrix.cons_val_zero, Matrix.cons_val_one, Matrix.head_cons]

/-- Entry (1,1) of the factor of sigmaC1. -/
theorem cholC1_11 : cholAux 2 sigmaC1 1 1 = 1 := by
  rw [cholAux,
    Finset.sum_attach (Finset.range 1) fun m => cholAux 2 sigmaC1 1 m ^ 2,
    Finset.sum_range_one, cholC1_10]
  norm_num [sigmaC1, Fin.mk_one, Matrix.cons_val_one, Matrix.head_cons,
    Real.sqrt_one]

/-- Entry (0,1) of the factor of sigmaC1. -/
theorem cholC1_01 : cholAux 2 sigmaC1 0 1 = 0 := by
  rw [cholAux]
  norm_num

/-- The pivots of sigmaC1 are positive. -/
theorem sigmaC1_pivotOK : cholPivotOK 2 sigmaC1 := by
  intro j
  fin_cases j
  · simp only [cholPivot]
    rw [Finset.sum_attach (Finset.range 0) fun m => cholAux 2 sigmaC1 0 m ^ 2,
      Finset.sum_range_zero]
    norm_num [sigmaC1, Fin.mk_zero, Matrix.cons_val_zero]
  · simp only [cholPivot]
    rw [Finset.sum_attach (Finset.range 1) fun m => cholAux 2 sigmaC1 1 m ^ 2,
      Finset.sum_range_one, cholC1_10]
    norm_num [sigmaC1, Fin.mk_one, Matrix.cons_val_one, Matrix.head_cons]

/-- On sigmaC1 the factorization succeeds and returns cholC1. -/
theorem npCholesky_sigmaC1 : npCholesky 2 sigmaC1 = some cholC1 := by
  rw [npCholesky, if_pos sigmaC1_pivotOK]
  congr 1
  ext j k
  fin_cases j <;> fin_cases k <;>
    simp [cholC1, cholC1_00, cholC1_01, cholC1_10, cholC1_11]

/-- C1 (code evidence): on the valid non-diagonal covariance sigmaC1 the
factorization returns the genuine lower-triangular factor cholC1 (so
cholC1 times its transpose is sigmaC1, while its transpose times cholC1
is not), yet the proposal step of the chain kernel moves the origin by
the draw zC1 to the point (1,1), whereas the claimed update X plus
cholC1 times zC1 is the point (0,1): the kernel multiplies the draw on
the left of the factor, so its increment has covariance transpose of L
times L, not sigma. -/
theorem C1_code_evidence :
    npCholesky 2 sigmaC1 = some cholC1 ∧
      cholC1 * cholC1.transpose = sigmaC1 ∧
      cholC1.transpose * cholC1 ≠ sigmaC1 ∧
      (mcStep 2 (fun _ => 0) (fun _ => -10) (fun _ => 10) cholC1 (fun _ => zC1)
          (fun _ => 0) 0 (mcInit 2 (fun _ => 0) fun _ => 0)).X = ![1, 1] ∧
      cholC1.mulVec zC1 = ![0, 1] ∧
      (![1, 1] : Fin 2 → ℝ) ≠ ![0, 1] := by
  have hT : cholC1.transpose = !![1, 1; 0, 1] := by
    ext i j
    fin_cases i <;> fin_cases j <;> rfl
  refine ⟨npCholesky_sigmaC1, ?_, ?_, ?_, ?_, ?_⟩
  · rw [hT]
    ext i j
    fin_cases i <;> fin_cases j <;>
      (simp [Matrix.mul_apply, cholC1, sigmaC1, Fin.sum_univ_two]; try norm_num)
  · intro h
    rw [← Matrix.ext_iff] at h
    have h00 := h 0 0
    rw [hT] at h00
    simp [Matrix.mul_apply, cholC1, sigmaC1, Fin.sum_univ_two] at h00
  · funext j
    fin_cases j <;>
      simp [mcStep, mcInit, npclip, zC1, cholC1, Fin.sum_univ_two, sub_self,
        mul_zero, Real.exp_zero] <;> norm_num
  · funext j
    fin_cases j <;>
      simp [Matrix.mulVec, Matrix.dotProduct, zC1, cholC1, Fin.sum_univ_two]
  · intro h
    have h0 := congr_fun h 0
    simp at h0

/-- A step whose candidate is not strictly better and whose uniform draw
exceeds the exp ratio rejects: point, score and counter are unchanged
and the current point and score are recorded. -/
theorem mcStep_reject (D : ℕ) (fpost : (Fin D → ℝ) → ℝ) (xlb xub : Fin D → ℝ)
    (L : Matrix (Fin D) (Fin D) ℝ) (zs : ℕ → Fin D → ℝ) (us : ℕ → ℝ)
    (i : ℕ) (s : MCState D)
    (h1 : ¬ fpost (fun j => npclip ((∑ k, zs i k * L k j) + s.X j) (xlb j) (xub j)) < s.pX)
    (h2 : ¬ us i ≤ Real.exp (0.5 * (s.pX -
      fpost fun j => npclip ((∑ k, zs i k * L k j) + s.X j) (xlb j) (xub j)))) :
    mcStep D fpost xlb xub L zs us i s =
      { X := s.X, pX := s.pX, accept := s.accept,
        chain := Function.update s.chain i s.X,
        logpost := Function.update s.logpost i s.pX } := by
  rw [mcStep, if_neg h1, if_neg h2]

/-- Counterexample for C4 as stated: the chain kernel does not validate
the caller-supplied start, so from the out-of-bounds start X4 a rejected
first step records the value five, which exceeds the upper bound one. -/
theorem C4_counterexample :
    ((MChain 1 f4 (some fun _ => 0) 1 xlbW xubW X4 sigma1 zsW us4 1).map
        fun r => r.chain 0 0) = some 5 ∧ ¬ (5 : ℝ) ≤ xubW 0 := by
  have e1 : flogpost 1 f4 (some fun _ => 0) 1 xlbW xubW (fun _ => 1) = -1 := by
    simp [flogpost, f4]
  have e2 : flogpost 1 f4 (some fun _ => 0) 1 xlbW xubW X4 = -5 := by
    simp [flogpost, f4, X4]
  have e2m : (mcInit 1 (flogpost 1 f4 (some fun _ => 0) 1 xlbW xubW) X4).pX = (-5 : ℝ) := e2
  have hXtv : (fun j : Fin 1 => npclip ((∑ k, zsW 0 k * chol1 k j) +
        (mcInit 1 (flogpost 1 f4 (some fun _ => 0) 1 xlbW xubW) X4).X j)
        (xlbW j) (xubW j)) = fun _ => (1 : ℝ) := by
    funext j
    simp [zsW, mcInit, X4, xlbW, xubW, npclip]
  have hexp : Real.exp (-2 : ℝ) < 9 / 10 := by
    have h3 : (3 : ℝ) < Real.exp 2 := by
      have := Real.add_one_lt_exp (by norm_num : (2 : ℝ) ≠ 0)
      linarith
    have hinv : (Real.exp 2)⁻¹ < (3 : ℝ)⁻¹ := by
      exact inv_strictAnti₀ (by norm_num) h3
    rw [Real.exp_neg]
    calc (Real.exp 2)⁻¹ < (3 : ℝ)⁻¹ := hinv
      _ < 9 / 10 := by norm_num
  have h1 : ¬ flogpost 1 f4 (some fun _ => 0) 1 xlbW xubW
      (fun j => npclip ((∑ k, zsW 0 k * chol1 k j) +
        (mcInit 1 (flogpost 1 f4 (some fun _ => 0) 1 xlbW xubW) X4).X j)
        (xlbW j) (xubW j)) <
      (mcInit 1 (flogpost 1 f4 (some fun _ => 0) 1 xlbW xubW) X4).pX := by
    rw [hXtv, e1, e2m]
    norm_num
  have h2 : ¬ us4 0 ≤ Real.exp (0.5 *
      ((mcInit 1 (flogpost 1 f4 (some fun _ => 0) 1 xlbW xubW) X4).pX -
        flogpost 1 f4 (some fun _ => 0) 1 xlbW xubW
          (fun j => npclip ((∑ k, zsW 0 k * chol1 k j) +
            (mcInit 1 (flogpost 1 f4 (some fun _ => 0) 1 xlbW xubW) X4).X j)
            (xlbW j) (xubW j)))) := by
    rw [hXtv, e1, e2m]
    have harg : (0.5 : ℝ) * (-5 - -1) = -2 := by norm_num
    rw [harg]
    rw [us4]
    exact not_le.mpr (lt_of_lt_of_le hexp (by norm_num))
  constructor
  · rw [MChain_sigma1_eq]
    simp only [Option.map_some', Option.some.injEq]
    have hrun : mcRun 1 (flogpost 1 f4 (some fun _ => 0) 1 xlbW xubW) xlbW xubW
        chol1 zsW us4 X4 1 =
        mcStep 1 (flogpost 1 f4 (some fun _ => 0) 1 xlbW xubW) xlbW xubW
          chol1 zsW us4 0
          (mcInit 1 (flogpost 1 f4 (some fun _ => 0) 1 xlbW xubW) X4) := rfl
    show (mcRun 1 (flogpost 1 f4 (some fun _ => 0) 1 xlbW xubW) xlbW xubW
        chol1 zsW us4 X4 1).chain 0 0 = 5
    rw [hrun, mcStep_reject 1 _ _ _ _ _ _ 0 _ h1 h2]
    simp [mcInit, X4, Function.update_same]
  · norm_num [xubW]

/-- C5 (amended): with at least one chain, a proposal covariance whose
Cholesky factorization fails aborts the whole invocation: the failure
happens at the head of the first chain kernel call, before any proposal
is drawn or any candidate is scored, and no result is returned. -/
theorem C5_nonpd_aborts (D M : ℕ) (f : (Fin D → ℝ) → ℝ)
    (gp : Option ((Fin D → ℝ) → ℝ)) (T : ℝ) (B N : ℕ) (xlb xub : Fin D → ℝ)
    (X0 : ℕ → Fin D → ℝ) (sigma : Option (Matrix (Fin D) (Fin D) ℝ))
    (zsB : ℕ → ℕ → Fin D → ℝ) (usB : ℕ → ℕ → ℝ) (zsS : ℕ → ℕ → Fin D → ℝ)
    (usS : ℕ → ℕ → ℝ) (hM : 0 < M)
    (hbad : npCholesky D (resolveSigma D xlb xub sigma) = none) :
    sampler D M f gp T B N xlb xub X0 sigma zsB usB zsS usS = none := by
  obtain ⟨m, rfl⟩ : ∃ m, M = m + 1 := ⟨M - 1, by omega⟩
  have hfail : samplerStep D f gp (1 / T) B N xlb xub X0
      (resolveSigma D xlb xub sigma) zsB usB zsS usS (samplerInit D) 0 = none := by
    simp [samplerStep, MChain, hbad]
  rw [sampler, samplerAux, List.range_succ_eq_map, List.foldlM_cons, hfail]
  rfl

/-- Witness for C5 at a concrete negative one-dimensional covariance. -/
theorem C5_witness :
    0 < 1 ∧ npCholesky 1 (resolveSigma 1 xlbW xubW (some sigmaNeg)) = none ∧
      sampler 1 1 fW gpW 1 1 1 xlbW xubW (fun _ => X0W) (some sigmaNeg)
        zsB2 usB2 zsB2 usB2 = none := by
  have hbad : npCholesky 1 (resolveSigma 1 xlbW xubW (some sigmaNeg)) = none := by
    show npCholesky 1 sigmaNeg = none
    rw [npCholesky, if_neg]
    intro h
    have h0 := h 0
    simp only [cholPivot, Fin.val_zero] at h0
    rw [Finset.sum_attach (Finset.range 0) fun m => cholAux 1 sigmaNeg 0 m ^ 2,
      Finset.sum_range_zero] at h0
    norm_num [sigmaNeg] at h0
  exact ⟨by norm_num, hbad,
    C5_nonpd_aborts 1 1 fW gpW 1 1 1 xlbW xubW (fun _ => X0W) (some sigmaNeg)
      zsB2 usB2 zsB2 usB2 (by norm_num) hbad⟩

/-- Counterexample for C5 as stated: inverted bounds (lower bound one,
upper bound zero) are not validated anywhere, and on this input the
source runs every chain to completion and returns a result instead of
aborting.  The input keeps the whole run finite in the source: a prior
evaluator is supplied, so no logarithm of the negative box length is
taken; the score is the negated first coordinate; every proposal is
clipped to zero (numpy clip with lower bound above upper bound returns
the upper bound); from the start five each chain scores minus five
against the candidate score zero, so the accept ratio is exp of minus
two and a half, about 0.082: the burn-in draw and the first sampling
draw (nine tenths) reject, the second sampling draw (one hundredth)
accepts, and each of the two sampling chains records five then zero.
The within-chain covariance is then twelve and a half (invertible), the
between-chain covariance of the two equal chain means is zero, and the
diagnostic is the square root of one half - every quantity the source
computes on this path is finite, so the real run also returns. -/
theorem C5_counterexample :
    (sampler 1 2 f4 gpW 1 1 2 (fun _ => 1) (fun _ => 0) (fun _ => X4)
        (some sigma1) zsB2 usB5 zsB2 usS5).isSome = true := by
  rw [sampler, samplerAux, show List.range 2 = [0, 1] from rfl]
  simp [List.foldlM_cons, List.foldlM_nil, samplerStep, MChain_sigma1_eq,
    resolveSigma]

/-- C7: for a sequential sampler run over M chains, each chain index i
below M has its burn-in and sampling kernel results; the acceptance
vector at i, the stored ensemble row i, and the merged block of rows
i times N through (i+1) times N all coincide with that chain's sampling
result, and every merged row at or beyond M times N still holds its
initial zero. -/
theorem C7_merged_blocks (D M : ℕ) (f : (Fin D → ℝ) → ℝ)
    (gp : Option ((Fin D → ℝ) → ℝ)) (beta : ℝ) (B N : ℕ) (xlb xub : Fin D → ℝ)
    (X0 : ℕ → Fin D → ℝ) (sigma : Matrix (Fin D) (Fin D) ℝ)
    (zsB : ℕ → ℕ → Fin D → ℝ) (usB : ℕ → ℕ → ℝ) (zsS : ℕ → ℕ → Fin D → ℝ)
    (usS : ℕ → ℕ → ℝ) (out : SamplerOut D)
    (hout : samplerAux D M f gp beta B N xlb xub X0 sigma zsB usB zsS usS = some out) :
    (∀ i < M, ∃ b s : MCOut D,
        MChain D f gp beta xlb xub (X0 i) sigma (zsB i) (usB i) B = some b ∧
        MChain D f gp beta xlb xub (b.chain (B - 1)) sigma (zsS i) (usS i) N = some s ∧
        out.ACC i = s.accept ∧ out.Chain i = s.chain ∧ out.LogPost i = s.logpost ∧
        ∀ t < N, out.ChainMerged (i * N + t) = s.chain t ∧
          out.LogPostMerged (i * N + t) = s.logpost t) ∧
    ∀ r, M * N ≤ r → out.ChainMerged r = 0 ∧ out.LogPostMerged r = 0 := by
  induction M generalizing out with
  | zero =>
    rw [samplerAux, List.range_zero, List.foldlM_nil] at hout
    have hinit : samplerInit D = out := by simpa using hout
    subst hinit
    exact ⟨fun i hi => absurd hi (Nat.not_lt_zero i), fun r hr => ⟨rfl, rfl⟩⟩
  | succ M ih =>
    rw [samplerAux, List.range_succ, List.foldlM_append] at hout
    simp only [List.foldlM_cons, List.foldlM_nil, bind_pure] at hout
    rw [Option.bind_eq_bind', Option.bind_eq_some'] at hout
    obtain ⟨o, ho, hstep⟩ := hout
    have IH := ih o ho
    rcases hb : MChain D f gp beta xlb xub (X0 M) sigma (zsB M) (usB M) B with _ | b
    · rw [samplerStep, hb] at hstep
      simp at hstep
    · rcases hs : MChain D f gp beta xlb xub (b.chain (B - 1)) sigma
          (zsS M) (usS M) N with _ | s
      · rw [samplerStep, hb] at hstep
        simp only [Option.bind_eq_bind', Option.some_bind] at hstep
        rw [hs] at hstep
        simp at hstep
      · rw [samplerStep, hb] at hstep
        simp only [Option.bind_eq_bind', Option.some_bind] at hstep
        rw [hs] at hstep
        simp only [Option.bind_eq_bind', Option.some_bind, Option.pure_def,
          Option.some.injEq] at hstep
        subst hstep
        constructor
        · intro i hi
          rcases Nat.lt_succ_iff_lt_or_eq.mp hi with hi' | hi'
          · obtain ⟨b', s', hb', hs', h1, h2, h3, h4⟩ := IH.1 i hi'
            refine ⟨b', s', hb', hs', ?_, ?_, ?_, ?_⟩
            · show Function.update o.ACC M s.accept i = s'.accept
              rw [Function.update_noteq (Nat.ne_of_lt hi')]
              exact h1
            · show Function.update o.Chain M s.chain i = s'.chain
              rw [Function.update_noteq (Nat.ne_of_lt hi')]
              exact h2
            · show Function.update o.LogPost M s.logpost i = s'.logpost
              rw [Function.update_noteq (Nat.ne_of_lt hi')]
              exact h3
            · intro t ht
              have hlt : i * N + t < M * N := by
                have ha : i * N + t < (i + 1) * N := by
                  rw [Nat.succ_mul]
                  omega
                exact lt_of_lt_of_le ha
                  (Nat.mul_le_mul_right N (Nat.succ_le_of_lt hi'))
              have hnot : ¬ (M * N ≤ i * N + t ∧ i * N + t < (M + 1) * N) :=
                fun hcon => (Nat.not_le.mpr hlt) hcon.1
              constructor
              · show (if M * N ≤ i * N + t ∧ i * N + t < (M + 1) * N then
                    s.chain (i * N + t - M * N) else o.ChainMerged (i * N + t)) = s'.chain t
                rw [if_neg hnot]
                exact (h4 t ht).1
              · show (if M * N ≤ i * N + t ∧ i * N + t < (M + 1) * N then
                    s.logpost (i * N + t - M * N) else o.LogPostMerged (i * N + t)) =
                    s'.logpost t
                rw [if_neg hnot]
                exact (h4 t ht).2
          · subst hi'
            refine ⟨b, s, hb, hs, ?_, ?_, ?_, ?_⟩
            · show Function.update o.ACC i s.accept i = s.accept
              rw [Function.update_same]
            · show Function.update o.Chain i s.chain i = s.chain
              rw [Function.update_same]
            · show Function.update o.LogPost i s.logpost i = s.logpost
              rw [Function.update_same]
            · intro t ht
              have hc : i * N ≤ i * N + t ∧ i * N + t < (i + 1) * N := by
                constructor
                · exact Nat.le_add_right _ _
                · rw [Nat.succ_mul]
                  omega
              constructor
              · show (if i * N ≤ i * N + t ∧ i * N + t < (i + 1) * N then
                    s.chain (i * N + t - i * N) else o.ChainMerged (i * N + t)) = s.chain t
                rw [if_pos hc, Nat.add_sub_cancel_left]
              · show (if i * N ≤ i * N + t ∧ i * N + t < (i + 1) * N then
                    s.logpost (i * N + t - i * N) else o.LogPostMerged (i * N + t)) =
                    s.logpost t
                rw [if_pos hc, Nat.add_sub_cancel_left]
        · intro r hr
          have hge : M * N ≤ r :=
            le_trans (Nat.mul_le_mul_right N (Nat.le_succ M)) hr
          have hnot : ¬ (M * N ≤ r ∧ r < (M + 1) * N) :=
            fun hcon => (Nat.not_lt.mpr hr) hcon.2
          constructor
          · show (if M * N ≤ r ∧ r < (M + 1) * N then s.chain (r - M * N)
                else o.ChainMerged r) = 0
            rw [if_neg hnot]
            exact (IH.2 r hge).1
          · show (if M * N ≤ r ∧ r < (M + 1) * N then s.logpost (r - M * N)
                else o.LogPostMerged r) = 0
            rw [if_neg hnot]
            exact (IH.2 r hge).2

/-- An option that is some equals some of its getD value. -/
theorem option_isSome_getD {α : Type _} (o : Option α) (d : α)
    (h : o.isSome = true) : o = some (o.getD d) := by
  cases o with
  | none => simp at h
  | some a => rfl

/-- Witness for C7 at a concrete one-chain one-step sampler run. -/
theorem C7_witness :
    ∃ b s : MCOut 1,
      MChain 1 fW gpW 1 xlbW xubW X0W sigma1 (zsB2 0) (usB2 0) 1 = some b ∧
      MChain 1 fW gpW 1 xlbW xubW (b.chain 0) sigma1 (zsB2 0) (usB2 0) 1 = some s ∧
      outW.ACC 0 = s.accept ∧ outW.Chain 0 = s.chain ∧ outW.LogPost 0 = s.logpost ∧
      ∀ t < 1, outW.ChainMerged (0 * 1 + t) = s.chain t ∧
        outW.LogPostMerged (0 * 1 + t) = s.logpost t := by
  have hsome : auxW.isSome = true := by
    rw [auxW, samplerAux, show List.range 1 = [0] from rfl]
    simp [List.foldlM_cons, List.foldlM_nil, samplerStep, MChain_sigma1_eq]
  have hres : auxW = some outW := option_isSome_getD auxW (samplerInit 1) hsome
  exact (C7_merged_blocks 1 1 fW gpW 1 1 1 xlbW xubW (fun _ => X0W) sigma1
    zsB2 usB2 zsB2 usB2 outW hres).1 0 (by norm_num)

end

end Metropolis
